import Mathlib

/-!
Verification of the tic-tac-toe game in `src/src/Game.tsx`.

The board is a JS array of 9 cells, each `"X"`, `"O"` or `null`; we model a
cell as `Option Mark` (`none` = `null`).  A JS array lookup `a[i]` may also
yield `undefined` when `i` is out of range; where the distinction matters we
model a lookup as `List.getElem?` (`none` = `undefined`, `some none` = `null`,
`some (some v)` = a symbol), which makes JS strict equality `===` coincide
with Lean equality of `Option (Option Mark)` values.  Truthiness of a cell
(`squares[i]` in a condition) is `Option.isSome` of `List.getD i none`,
since both `null` and `undefined` are falsy and the two strings are truthy.
-/

/-- A player symbol, JS string `"X"` or `"O"`. -/
inductive Mark where
  | X : Mark
  | O : Mark
deriving DecidableEq

/-- Render a symbol the way JS string interpolation does. -/
def symStr : Mark → String
  | Mark.X => "X"
  | Mark.O => "O"

/-- One cell of the board: `null`, `"X"` or `"O"`. -/
abbrev Cell := Option Mark

/-- A board snapshot: the JS array `squares` (length 9 in every state the
game builds, but the functions are defined on any array). -/
abbrev BoardArr := List Cell

/-- The eight fixed winning lines of `calculateWinner`, in source order:
three rows, three columns, two diagonals (Game.tsx lines 56-65). -/
def lines : List (Nat × Nat × Nat) :=
  [(0, 1, 2), (3, 4, 5), (6, 7, 8),
   (0, 3, 6), (1, 4, 7), (2, 5, 8),
   (0, 4, 8), (2, 4, 6)]

/-- The loop condition of `calculateWinner` for one line `(a, b, c)`:
`squares[a] && squares[a] === squares[b] && squares[a] === squares[c]`.
`squares[a]` truthy is `isSome`; on an in-range index `===` is equality of
cells, and an out-of-range operand (`undefined`, which `getD _ none` also
maps to `none`) never equals the truthy `squares[a]`. -/
def lineWins (squares : BoardArr) (t : Nat × Nat × Nat) : Bool :=
  (squares.getD t.1 none).isSome &&
    (squares.getD t.1 none == squares.getD t.2.1 none) &&
    (squares.getD t.1 none == squares.getD t.2.2 none)

/-- `calculateWinner` (Game.tsx lines 55-78): scan the eight lines in source
order and return the first winning one with its symbol, else
`\x7b winner: null, line: null \x7d`. -/
def calculateWinner (squares : BoardArr) : Option Mark × Option (List Nat) :=
  match lines.find? (lineWins squares) with
  | some (a, b, c) => (squares.getD a none, some [a, b, c])
  | none => (none, none)

/-- Spec-side reading of "a line wins": all three of its cells are non-empty
and equal.  Stated with `getElem?`, independent of the code's truthiness
encoding; `lineWins_iff_lineAllEq` compares it against `lineWins`. -/
def lineAllEq (squares : BoardArr) (t : Nat × Nat × Nat) : Prop :=
  ∃ v : Mark, squares[t.1]? = some (some v) ∧
    squares[t.2.1]? = some (some v) ∧ squares[t.2.2]? = some (some v)

/-- The display string `(row, col)` built by `getMoveLocation` from a linear
cell index: row = i/3 + 1, col = i%3 + 1, both 1-based. -/
def locString (i : Nat) : String :=
  "(" ++ toString (i / 3 + 1) ++ ", " ++ toString (i % 3 + 1) ++ ")"

/-- `getMoveLocation` (Game.tsx lines 80-92): `null` for move 0; otherwise
scan cells `0 ≤ i < curr.length` in order and return the location of the
first index where `curr[i] !== prev[i]`, or `null` when none differs.
`getElem?` reproduces `!==` exactly (`undefined`, `null` and the symbols are
pairwise distinct).  The JS code reads `history[move - 1].squares` and
`history[move].squares` without a range check and would throw on an absent
entry; the model totalises that lookup with an empty default, which no
theorem below relies on (they all carry in-range hypotheses). -/
def getMoveLocation (history : List BoardArr) (move : Nat) : Option String :=
  if move = 0 then none
  else
    let prev := history.getD (move - 1) []
    let curr := history.getD move []
    match (List.range curr.length).find? (fun i => curr[i]? != prev[i]?) with
    | some i => some (locString i)
    | none => none

/-- The all-`null` 9-cell board, `Array(9).fill(null)`. -/
def emptyBoard : BoardArr := List.replicate 9 none

/-- The four `useState` variables of the `Game` component
(Game.tsx lines 95-100).  A history entry in the source is a record
`\x7b squares \x7d` with a single field; we model it as the array itself. -/
structure GameState where
  history : List BoardArr
  stepNumber : Nat
  xIsNext : Bool
  isAscending : Bool
deriving DecidableEq

/-- The initial render state: one-snapshot history of the empty board,
step 0, X to move, ascending move list. -/
def initState : GameState :=
  { history := [emptyBoard], stepNumber := 0, xIsNext := true, isAscending := true }

/-- `current.squares` of the render scope (Game.tsx line 102):
`history[stepNumber]`, totalised with an empty default for the
out-of-range case (JS `undefined`), which `current_getElem?` together with
`reachable_stateInv` shows never occurs in reachable states. -/
def currentSquares (s : GameState) : BoardArr :=
  s.history.getD s.stepNumber []

/-- `handleClick` (Game.tsx lines 105-118).  `winner` is the render-scope
value computed from `history[stepNumber]` (line 103); `hist` truncates the
history to the current step + 1 entries; `current`/`squares` is the last
entry of `hist`; an existing winner or a truthy `squares[i]` makes the
handler return without any state update; otherwise cell `i` is set to the
active symbol, the new snapshot is appended, the step becomes `hist.length`
and the turn flag flips. -/
def handleClick (i : Nat) (s : GameState) : GameState :=
  let hist := s.history.take (s.stepNumber + 1)
  let squares := hist.getD (hist.length - 1) []
  let winner := (calculateWinner (currentSquares s)).1
  if winner.isSome || (squares.getD i none).isSome then s
  else
    { s with
      history := hist ++ [squares.set i (some (if s.xIsNext then Mark.X else Mark.O))],
      stepNumber := hist.length,
      xIsNext := !s.xIsNext }

/-- `jumpTo` (Game.tsx lines 120-123): set the step and recompute the turn
flag from its parity; nothing else. -/
def jumpTo (step : Nat) (s : GameState) : GameState :=
  { s with stepNumber := step, xIsNext := decide (step % 2 = 0) }

/-- The sort-toggle button handler (Game.tsx line 170):
`setIsAscending(!isAscending)`. -/
def toggleSort (s : GameState) : GameState :=
  { s with isAscending := !s.isAscending }

/-- The text of one move-list entry (Game.tsx lines 125-144): the entry at
the current step is the bold non-interactive text, move 0 otherwise is
"Go to game start", and any other move is a jump button labelled with its
location (a JS falsy check on the location string renders it as ""). -/
def moveEntry (s : GameState) (move : Nat) : String :=
  let location := (getMoveLocation s.history move).getD ""
  if move = s.stepNumber then
    "You are at move #" ++ toString move ++ " " ++ location
  else if move ≠ 0 then
    "Go to move #" ++ toString move ++ " " ++ location
  else
    "Go to game start"

/-- The move list in history order: `history.map((step, move) => ...)`. -/
def moves (s : GameState) : List String :=
  (List.range s.history.length).map (moveEntry s)

/-- `sortedMoves` (Game.tsx line 146): ascending shows the list as built,
descending shows a reversed copy (`slice().reverse()` never mutates). -/
def sortedMoves (s : GameState) : List String :=
  if s.isAscending then moves s else (moves s).reverse

/-- The draw status text, built without a literal quote character. -/
def drawText : String := "It" ++ String.singleton (Char.ofNat 39) ++ "s a draw!"

/-- The status line (Game.tsx lines 148-157): winner text if the current
snapshot has a winner, the draw text at step 9, else the next player per
the stored turn flag. -/
def status (s : GameState) : String :=
  match (calculateWinner (currentSquares s)).1 with
  | some w => "Winner: " ++ symStr w
  | none =>
    if s.stepNumber = 9 then drawText
    else "Next player: " ++ (if s.xIsNext then "X" else "O")

/-- Number of non-empty cells of a board. -/
def countFilled (b : BoardArr) : Nat := b.countP (fun c => c.isSome)

/-- States reachable from the initial render by the three event handlers.
Cell clicks carry an index 0-8 (the `Board` renderer only wires those), and
history-entry activations only request existing history indices (the move
list renders one button per history entry). -/
inductive Reachable : GameState → Prop where
  | init : Reachable initState
  | click {s : GameState} (i : Nat) (hi : i < 9) :
      Reachable s → Reachable (handleClick i s)
  | jump {s : GameState} (k : Nat) (hk : k < s.history.length) :
      Reachable s → Reachable (jumpTo k s)
  | sort {s : GameState} : Reachable s → Reachable (toggleSort s)

/-! ### Helper lemmas -/

theorem getD_none_eq_some_iff (l : BoardArr) (i : Nat) (v : Mark) :
    l.getD i none = some v ↔ l[i]? = some (some v) := by
  rw [List.getD_eq_getElem?_getD]
  cases hc : l[i]? with
  | none => simp
  | some c => simp

theorem getD_none_isSome_false_iff (l : BoardArr) (i : Nat) (hi : i < l.length) :
    (l.getD i none).isSome = false ↔ l[i]? = some none := by
  rw [List.getD_eq_getElem?_getD, List.getElem?_eq_getElem hi]
  cases hv : l[i] <;> simp

/-- The boolean loop condition of `calculateWinner` holds exactly when the
spec-side predicate "all three cells non-empty and equal" does. -/
theorem lineWins_iff_lineAllEq (squares : BoardArr) (t : Nat × Nat × Nat) :
    lineWins squares t = true ↔ lineAllEq squares t := by
  obtain ⟨a, b, c⟩ := t
  simp only [lineWins, lineAllEq, Bool.and_eq_true, beq_iff_eq, Option.isSome_iff_exists]
  constructor
  · rintro ⟨⟨⟨v, hv⟩, hab⟩, hac⟩
    exact ⟨v, (getD_none_eq_some_iff _ _ _).mp hv,
      (getD_none_eq_some_iff _ _ _).mp (hab.symm.trans hv),
      (getD_none_eq_some_iff _ _ _).mp (hac.symm.trans hv)⟩
  · rintro ⟨v, ha, hb, hc⟩
    have ha' := (getD_none_eq_some_iff squares a v).mpr ha
    have hb' := (getD_none_eq_some_iff squares b v).mpr hb
    have hc' := (getD_none_eq_some_iff squares c v).mpr hc
    exact ⟨⟨⟨v, ha'⟩, by rw [ha', hb']⟩, by rw [ha', hc']⟩

/-- `List.find?` returns the element at position `k` when it satisfies the
predicate and every earlier element fails it. -/
theorem find?_of_first {α : Type} (p : α → Bool) (l : List α) (k : Nat) (x : α)
    (hk : l[k]? = some x) (hx : p x = true)
    (hprev : ∀ j, j < k → ∀ y, l[j]? = some y → p y = false) :
    l.find? p = some x := by
  induction l generalizing k with
  | nil => simp at hk
  | cons a t ih =>
    cases k with
    | zero =>
      rw [List.getElem?_cons_zero] at hk
      obtain rfl : a = x := by injection hk
      exact List.find?_cons_of_pos _ hx
    | succ k' =>
      have ha : p a = false := hprev 0 (Nat.succ_pos _) a List.getElem?_cons_zero
      rw [List.find?_cons_of_neg _ (by simp [ha])]
      exact ih k' (by simpa using hk)
        (fun j hj y hy => hprev (j + 1) (by omega) y (by simpa using hy))

/-- Setting an empty cell to a symbol raises the filled-cell count by one. -/
theorem countFilled_set_of_none (b : BoardArr) (i : Nat) (v : Mark)
    (h : b[i]? = some none) :
    countFilled (b.set i (some v)) = countFilled b + 1 := by
  induction b generalizing i with
  | nil => simp at h
  | cons c t ih =>
    cases i with
    | zero =>
      rw [List.getElem?_cons_zero] at h
      obtain rfl : c = none := by injection h
      simp [countFilled, List.set_cons_zero, List.countP_cons]
    | succ i' =>
      rw [List.getElem?_cons_succ] at h
      rw [List.set_cons_succ]
      simp only [countFilled, List.countP_cons] at *
      rw [ih i' h]
      omega

/-- The state invariant maintained by every handler: the step is an index
into the history, the turn flag matches its parity, the history starts at
the empty board, and the snapshot at index `k` is a 9-cell board with
exactly `k` filled cells. -/
def StateInv (s : GameState) : Prop :=
  s.stepNumber < s.history.length ∧
  s.xIsNext = decide (s.stepNumber % 2 = 0) ∧
  s.history[0]? = some emptyBoard ∧
  ∀ k b, s.history[k]? = some b → b.length = 9 ∧ countFilled b = k

theorem inv_initState : StateInv initState := by
  refine ⟨by simp [initState], by simp [initState], by simp [initState, emptyBoard], ?_⟩
  intro k b hkb
  cases k with
  | zero =>
    simp only [initState, List.getElem?_cons_zero] at hkb
    obtain rfl : emptyBoard = b := by injection hkb
    exact ⟨by decide, by decide⟩
  | succ k' => simp [initState] at hkb

/-- In a state whose step indexes into the history (every reachable state),
`history[stepNumber]` is defined and is `currentSquares`. -/
theorem current_getElem? {s : GameState} (hs : s.stepNumber < s.history.length) :
    s.history[s.stepNumber]? = some (currentSquares s) := by
  rw [List.getElem?_eq_getElem hs]
  simp [currentSquares, List.getD_eq_getElem?_getD, List.getElem?_eq_getElem hs]

/-- Characterisation of `handleClick` on states whose step indexes into the
history: the truncated history's last entry is the current snapshot, so the
handler either ignores the click or appends the updated snapshot. -/
theorem handleClick_eq (i : Nat) (s : GameState) (hs : s.stepNumber < s.history.length) :
    handleClick i s =
      if (calculateWinner (currentSquares s)).1.isSome ||
          ((currentSquares s).getD i none).isSome then s
      else
        { s with
          history := s.history.take (s.stepNumber + 1) ++
            [(currentSquares s).set i (some (if s.xIsNext then Mark.X else Mark.O))],
          stepNumber := s.stepNumber + 1,
          xIsNext := !s.xIsNext } := by
  have h1 : (s.history.take (s.stepNumber + 1)).length = s.stepNumber + 1 := by
    simp only [List.length_take]
    omega
  have h2 : (s.history.take (s.stepNumber + 1)).getD
      ((s.history.take (s.stepNumber + 1)).length - 1) [] = currentSquares s := by
    rw [h1]
    simp [currentSquares, List.getD_eq_getElem?_getD, List.getElem?_take]
  simp only [handleClick]
  rw [h2, h1]

theorem stateInv_handleClick (i : Nat) {s : GameState} (hi : i < 9) (h : StateInv s) :
    StateInv (handleClick i s) := by
  obtain ⟨hstep, hx, h0, hall⟩ := h
  rw [handleClick_eq i s hstep]
  by_cases hg : ((calculateWinner (currentSquares s)).1.isSome ||
      ((currentSquares s).getD i none).isSome) = true
  · rw [if_pos hg]
    exact ⟨hstep, hx, h0, hall⟩
  · rw [if_neg hg]
    rw [Bool.or_eq_true, not_or] at hg
    obtain ⟨hw, ho⟩ := hg
    obtain ⟨hlen9, hcount⟩ := hall _ _ (current_getElem? hstep)
    have hi' : i < (currentSquares s).length := by omega
    have ho' : ((currentSquares s).getD i none).isSome = false := by
      cases hb : ((currentSquares s).getD i none).isSome with
      | false => rfl
      | true => exact absurd hb ho
    have hcell : (currentSquares s)[i]? = some none :=
      (getD_none_isSome_false_iff _ _ hi').mp ho'
    have hlentake : (s.history.take (s.stepNumber + 1)).length = s.stepNumber + 1 := by
      simp only [List.length_take]
      omega
    refine ⟨?_, ?_, ?_, ?_⟩
    · simp only [List.length_append, hlentake, List.length_cons, List.length_nil]
      omega
    · show (!s.xIsNext) = decide ((s.stepNumber + 1) % 2 = 0)
      rw [hx]
      rcases Nat.mod_two_eq_zero_or_one s.stepNumber with h2 | h2
      · have h3 : (s.stepNumber + 1) % 2 = 1 := by omega
        simp [h2, h3]
      · have h3 : (s.stepNumber + 1) % 2 = 0 := by omega
        simp [h2, h3]
    · show (s.history.take (s.stepNumber + 1) ++ _)[0]? = some emptyBoard
      rw [List.getElem?_append]
      rw [hlentake, if_pos (Nat.succ_pos _), List.getElem?_take,
        if_pos (Nat.succ_pos _)]
      exact h0
    · intro k b hkb
      by_cases hk : k < s.stepNumber + 1
      · rw [List.getElem?_append, hlentake, if_pos hk, List.getElem?_take,
          if_pos hk] at hkb
        exact hall k b hkb
      · rw [List.getElem?_append_right (by omega : (s.history.take (s.stepNumber + 1)).length ≤ k),
          hlentake] at hkb
        cases hkd : k - (s.stepNumber + 1) with
        | zero =>
          rw [hkd, List.getElem?_cons_zero] at hkb
          have hb : (currentSquares s).set i
              (some (if s.xIsNext then Mark.X else Mark.O)) = b := by injection hkb
          have hkeq : k = s.stepNumber + 1 := by omega
          subst hb
          refine ⟨by rw [List.length_set]; exact hlen9, ?_⟩
          rw [countFilled_set_of_none _ _ _ hcell, hcount, hkeq]
        | succ d =>
          rw [hkd] at hkb
          simp at hkb

theorem stateInv_jumpTo (k : Nat) {s : GameState} (hk : k < s.history.length)
    (h : StateInv s) : StateInv (jumpTo k s) := by
  obtain ⟨_, _, h0, hall⟩ := h
  exact ⟨hk, rfl, h0, hall⟩

theorem stateInv_toggleSort {s : GameState} (h : StateInv s) :
    StateInv (toggleSort s) := h

theorem reachable_stateInv {s : GameState} (h : Reachable s) : StateInv s := by
  induction h with
  | init => exact inv_initState
  | click i hi _ ih => exact stateInv_handleClick i hi ih
  | jump k hk _ ih => exact stateInv_jumpTo k hk ih
  | sort _ ih => exact stateInv_toggleSort ih

/-! ### Claim theorems -/

/-- C1: on every 9-cell board, `calculateWinner` checks the 8 fixed lines in
their fixed order; if the line at position `k` has all three cells non-empty
and equal to `v` and no earlier line does, it returns that symbol together
with that line, and on a board where no line has three equal non-empty
cells it returns no winner and no line. -/
theorem calculateWinner_correct (squares : BoardArr) (hlen : squares.length = 9) :
    (∀ (k a b c : Nat) (v : Mark), lines[k]? = some (a, b, c) →
      squares[a]? = some (some v) → squares[b]? = some (some v) →
      squares[c]? = some (some v) →
      (∀ j, j < k → ∀ t : Nat × Nat × Nat, lines[j]? = some t → ¬ lineAllEq squares t) →
      calculateWinner squares = (some v, some [a, b, c])) ∧
    ((∀ t ∈ lines, ¬ lineAllEq squares t) → calculateWinner squares = (none, none)) := by
  constructor
  · intro k a b c v hk ha hb hc hprev
    have hwin : lineWins squares (a, b, c) = true :=
      (lineWins_iff_lineAllEq _ _).mpr ⟨v, ha, hb, hc⟩
    have hfind : lines.find? (lineWins squares) = some (a, b, c) := by
      refine find?_of_first _ _ k _ hk hwin ?_
      intro j hj y hy
      cases hpy : lineWins squares y with
      | false => rfl
      | true => exact absurd ((lineWins_iff_lineAllEq _ _).mp hpy) (hprev j hj y hy)
    simp only [calculateWinner, hfind]
    rw [(getD_none_eq_some_iff _ _ _).mpr ha]
  · intro hno
    have hfind : lines.find? (lineWins squares) = none := by
      rw [List.find?_eq_none]
      intro t ht hw
      exact hno t ht ((lineWins_iff_lineAllEq _ _).mp hw)
    simp only [calculateWinner, hfind]

/-- C1 witness: a board with X across the top row. -/
theorem calculateWinner_correct_witness :
    calculateWinner
        [some Mark.X, some Mark.X, some Mark.X, none, none, none, none, none, none] =
      (some Mark.X, some [0, 1, 2]) :=
  (calculateWinner_correct _ (by decide)).1 0 0 1 2 Mark.X rfl rfl rfl rfl
    (fun j hj t _ => absurd hj (by omega))

/-- C2: in a reachable state with no winner on the current snapshot and an
empty cell `i`, a click truncates the history to step + 1 entries, appends
exactly one snapshot equal to the current one except cell `i` set to the
active symbol (X iff the step is even), and sets the step to the new last
index; jumping and sort-toggling never change the history. -/
theorem handleClick_move_spec (s : GameState) (hr : Reachable s) (i : Nat) (hi : i < 9)
    (hw : (calculateWinner (currentSquares s)).1 = none)
    (he : (currentSquares s).getD i none = none) :
    (handleClick i s).history =
      s.history.take (s.stepNumber + 1) ++
        [(currentSquares s).set i
          (some (if s.stepNumber % 2 = 0 then Mark.X else Mark.O))] ∧
    (handleClick i s).history.length = s.stepNumber + 2 ∧
    (handleClick i s).stepNumber = s.stepNumber + 1 ∧
    (handleClick i s).stepNumber = (handleClick i s).history.length - 1 ∧
    (∀ (t : GameState) (k : Nat), (jumpTo k t).history = t.history) ∧
    (∀ t : GameState, (toggleSort t).history = t.history) := by
  obtain ⟨hstep, hx, -, -⟩ := reachable_stateInv hr
  have hguard : ((calculateWinner (currentSquares s)).1.isSome ||
      ((currentSquares s).getD i none).isSome) = false := by
    rw [hw, he]
    rfl
  have hsym : (if s.xIsNext then Mark.X else Mark.O) =
      (if s.stepNumber % 2 = 0 then Mark.X else Mark.O) := by
    rw [hx]
    by_cases hp : s.stepNumber % 2 = 0
    · simp [hp]
    · simp [hp]
  rw [handleClick_eq i s hstep, if_neg (by rw [hguard]; simp)]
  refine ⟨by rw [hsym], ?_, rfl, ?_, fun t k => rfl, fun t => rfl⟩
  · show (s.history.take (s.stepNumber + 1) ++ _).length = s.stepNumber + 2
    simp only [List.length_append, List.length_take, List.length_cons, List.length_nil]
    omega
  · show s.stepNumber + 1 = (s.history.take (s.stepNumber + 1) ++ _).length - 1
    simp only [List.length_append, List.length_take, List.length_cons, List.length_nil]
    omega

/-- C2 witness: the opening move at cell 0. -/
theorem handleClick_move_spec_witness :
    (handleClick 0 initState).stepNumber = initState.stepNumber + 1 :=
  (handleClick_move_spec initState Reachable.init 0 (by decide) (by decide)
    (by decide)).2.2.1

/-- C3: in a reachable state, a click on an occupied cell or any click while
the current snapshot has a winner leaves the whole state unchanged. -/
theorem handleClick_noop (s : GameState) (hr : Reachable s) (i : Nat)
    (h : (currentSquares s).getD i none ≠ none ∨
      (calculateWinner (currentSquares s)).1 ≠ none) :
    handleClick i s = s := by
  obtain ⟨hstep, -, -, -⟩ := reachable_stateInv hr
  have hg : ((calculateWinner (currentSquares s)).1.isSome ||
      ((currentSquares s).getD i none).isSome) = true := by
    rw [Bool.or_eq_true]
    rcases h with h | h
    · right
      exact Option.isSome_iff_ne_none.mpr h
    · left
      exact Option.isSome_iff_ne_none.mpr h
  rw [handleClick_eq i s hstep, if_pos hg]

/-- C3 witness: clicking cell 0 twice; the second click hits an occupied
cell and changes nothing. -/
theorem handleClick_noop_witness :
    handleClick 0 (handleClick 0 initState) = handleClick 0 initState :=
  handleClick_noop _ (Reachable.click 0 (by decide) Reachable.init) 0
    (Or.inl (by decide))

/-- C4: in every reachable state the stored turn flag equals the parity of
the current step: X is next iff the step index is even. -/
theorem turn_parity_invariant (s : GameState) (hr : Reachable s) :
    s.xIsNext = true ↔ s.stepNumber % 2 = 0 := by
  rw [(reachable_stateInv hr).2.1]
  exact decide_eq_true_iff

/-- C4 witness: the initial state. -/
theorem turn_parity_invariant_witness :
    initState.xIsNext = true ↔ initState.stepNumber % 2 = 0 :=
  turn_parity_invariant initState Reachable.init

/-- C5: in every reachable state the status text is the winner line when the
detector reports a winner, the draw text when there is no winner and the
step is 9, and otherwise the next-player line per the step parity. -/
theorem status_spec (s : GameState) (hr : Reachable s) :
    (∀ w : Mark, (calculateWinner (currentSquares s)).1 = some w →
      status s = "Winner: " ++ symStr w) ∧
    ((calculateWinner (currentSquares s)).1 = none → s.stepNumber = 9 →
      status s = drawText) ∧
    ((calculateWinner (currentSquares s)).1 = none → s.stepNumber ≠ 9 →
      status s = "Next player: " ++ (if s.stepNumber % 2 = 0 then "X" else "O")) := by
  have hx := (reachable_stateInv hr).2.1
  refine ⟨?_, ?_, ?_⟩
  · intro w hw
    simp only [status, hw]
  · intro hw h9
    simp only [status, hw, if_pos h9]
  · intro hw h9
    simp only [status, hw, if_neg h9]
    rw [hx]
    by_cases hp : s.stepNumber % 2 = 0
    · simp [hp]
    · simp [hp]

/-- C5 witness: the initial state shows the next-player text. -/
theorem status_spec_witness :
    status initState =
      "Next player: " ++ (if initState.stepNumber % 2 = 0 then "X" else "O") :=
  (status_spec initState Reachable.init).2.2 (by decide) (by decide)

/-- C6: jumping to step `k` sets the step to `k`, recomputes the turn flag
from the parity of `k`, and changes neither the history nor the sort flag. -/
theorem jumpTo_spec (s : GameState) (hr : Reachable s) (k : Nat) :
    (jumpTo k s).stepNumber = k ∧
    ((jumpTo k s).xIsNext = true ↔ k % 2 = 0) ∧
    (jumpTo k s).history = s.history ∧
    (jumpTo k s).isAscending = s.isAscending :=
  ⟨rfl, decide_eq_true_iff, rfl, rfl⟩

/-- C6 witness: jumping the initial state to step 3. -/
theorem jumpTo_spec_witness :
    (jumpTo 3 initState).stepNumber = 3 ∧
    ((jumpTo 3 initState).xIsNext = true ↔ 3 % 2 = 0) ∧
    (jumpTo 3 initState).history = initState.history ∧
    (jumpTo 3 initState).isAscending = initState.isAscending :=
  jumpTo_spec initState Reachable.init 3

/-- Characterisation of `getMoveLocation` when both snapshots exist. -/
theorem getMoveLocation_eq (history : List BoardArr) (m : Nat) (prev curr : BoardArr)
    (hm : m ≠ 0) (hprev : history[m - 1]? = some prev)
    (hcurr : history[m]? = some curr) :
    getMoveLocation history m =
      match (List.range curr.length).find? (fun i => curr[i]? != prev[i]?) with
      | some i => some (locString i)
      | none => none := by
  have hprev' : history.getD (m - 1) [] = prev := by
    rw [List.getD_eq_getElem?_getD, hprev]
    rfl
  have hcurr' : history.getD m [] = curr := by
    rw [List.getD_eq_getElem?_getD, hcurr]
    rfl
  simp only [getMoveLocation, if_neg hm, hprev', hcurr']

/-- C7: `getMoveLocation` returns no location for move 0; for a move `m > 0`
whose snapshots `m-1` and `m` exist, it scans the cells in index order and
returns the 1-based (row, column) display string of the first differing
cell, and no location when every cell agrees. -/
theorem getMoveLocation_spec (history : List BoardArr) (m : Nat) :
    (m = 0 → getMoveLocation history m = none) ∧
    (∀ prev curr : BoardArr, m ≠ 0 → history[m - 1]? = some prev →
      history[m]? = some curr →
      ((∀ i, i < curr.length → curr[i]? ≠ prev[i]? →
        (∀ j, j < i → curr[j]? = prev[j]?) →
        getMoveLocation history m = some (locString i)) ∧
      ((∀ i, i < curr.length → curr[i]? = prev[i]?) →
        getMoveLocation history m = none))) := by
  constructor
  · intro h0
    simp [getMoveLocation, h0]
  · intro prev curr hm hprev hcurr
    rw [getMoveLocation_eq history m prev curr hm hprev hcurr]
    constructor
    · intro i hilen hdiff hfirst
      have hfind : (List.range curr.length).find? (fun j => curr[j]? != prev[j]?) =
          some i := by
        refine find?_of_first _ _ i i (List.getElem?_range hilen)
          (bne_iff_ne.mpr hdiff) ?_
        intro j hj y hy
        have hjlen : j < curr.length := by omega
        rw [List.getElem?_range hjlen] at hy
        obtain rfl : j = y := by injection hy
        simp only [bne_eq_false_iff_eq]
        exact hfirst j hj
      rw [hfind]
    · intro hsame
      have hfind : (List.range curr.length).find? (fun j => curr[j]? != prev[j]?) =
          none := by
        rw [List.find?_eq_none]
        intro j hjmem hcon
        have hj : j < curr.length := List.mem_range.mp hjmem
        exact absurd (hsame j hj) (bne_iff_ne.mp hcon)
      rw [hfind]

/-- C7 witness: the first move at cell 0 is reported at row 1, column 1. -/
theorem getMoveLocation_spec_witness :
    getMoveLocation [emptyBoard, emptyBoard.set 0 (some Mark.X)] 1 =
      some (locString 0) :=
  ((getMoveLocation_spec [emptyBoard, emptyBoard.set 0 (some Mark.X)] 1).2
    emptyBoard (emptyBoard.set 0 (some Mark.X)) (by decide) rfl rfl).1 0
    (by decide) (by decide) (fun j hj => absurd hj (by omega))

/-- C8: toggling the sort order flips the flag and reverses the displayed
move list, while history, step and turn flag are untouched. -/
theorem toggleSort_spec (s : GameState) (hr : Reachable s) :
    (toggleSort s).isAscending = !s.isAscending ∧
    (toggleSort s).history = s.history ∧
    (toggleSort s).stepNumber = s.stepNumber ∧
    (toggleSort s).xIsNext = s.xIsNext ∧
    sortedMoves (toggleSort s) = (sortedMoves s).reverse := by
  refine ⟨rfl, rfl, rfl, rfl, ?_⟩
  have hmov : moves (toggleSort s) = moves s := rfl
  show (if (toggleSort s).isAscending then moves (toggleSort s)
      else (moves (toggleSort s)).reverse) =
    (if s.isAscending then moves s else (moves s).reverse).reverse
  rw [hmov, show (toggleSort s).isAscending = !s.isAscending from rfl]
  cases ha : s.isAscending with
  | true => simp
  | false => simp

/-- C8 witness: toggling the initial state. -/
theorem toggleSort_spec_witness :
    (toggleSort initState).isAscending = !initState.isAscending ∧
    (toggleSort initState).history = initState.history ∧
    (toggleSort initState).stepNumber = initState.stepNumber ∧
    (toggleSort initState).xIsNext = initState.xIsNext ∧
    sortedMoves (toggleSort initState) = (sortedMoves initState).reverse :=
  toggleSort_spec initState Reachable.init

/-- C9: `jumpTo` installs any requested step without validation; with every
jump request in range (as `Reachable` demands), `history[stepNumber]` is
defined in every reachable state, while an out-of-range jump makes the
lookup undefined. -/
theorem jumpTo_range_safety :
    (∀ (k : Nat) (s : GameState),
      (jumpTo k s).stepNumber = k ∧ (jumpTo k s).history = s.history) ∧
    (∀ s : GameState, Reachable s →
      ∃ b : BoardArr, s.history[s.stepNumber]? = some b) ∧
    (jumpTo 5 initState).history[(jumpTo 5 initState).stepNumber]? = none := by
  refine ⟨fun k s => ⟨rfl, rfl⟩, ?_, by decide⟩
  intro s hr
  exact ⟨currentSquares s, current_getElem? (reachable_stateInv hr).1⟩

/-- C9 witness: the in-bounds lookup at the initial state. -/
theorem jumpTo_range_safety_witness :
    ∃ b : BoardArr, initState.history[initState.stepNumber]? = some b :=
  jumpTo_range_safety.2.1 initState Reachable.init

/-- C10: in every reachable state the history is non-empty, starts at the
all-empty board, and its snapshot at index `k` has exactly `k` filled
cells; at step 9 every cell of the displayed board is occupied, so every
further click (on cells 0-8) is ignored by the occupied-cell check. -/
theorem history_invariants (s : GameState) (hr : Reachable s) :
    s.history ≠ [] ∧
    s.history[0]? = some emptyBoard ∧
    (∀ (k : Nat) (b : BoardArr), s.history[k]? = some b → countFilled b = k) ∧
    (s.stepNumber = 9 → ∀ i, i < 9 →
      (currentSquares s).getD i none ≠ none ∧ handleClick i s = s) := by
  obtain ⟨hstep, hx, h0, hall⟩ := reachable_stateInv hr
  refine ⟨?_, h0, fun k b hkb => (hall k b hkb).2, ?_⟩
  · intro hnil
    rw [hnil] at hstep
    simp at hstep
  · intro h9 i hi
    obtain ⟨hlen9, hcount⟩ := hall _ _ (current_getElem? hstep)
    have hfull : ∀ c ∈ currentSquares s, c.isSome = true := by
      apply List.countP_eq_length.mp
      show countFilled (currentSquares s) = (currentSquares s).length
      rw [hcount, h9, hlen9]
    have hi' : i < (currentSquares s).length := by omega
    have hcellsome : ((currentSquares s).getD i none).isSome = true := by
      rw [List.getD_eq_getElem?_getD, List.getElem?_eq_getElem hi']
      simpa using hfull _ (List.getElem_mem hi')
    have hg : ((calculateWinner (currentSquares s)).1.isSome ||
        ((currentSquares s).getD i none).isSome) = true := by
      rw [Bool.or_eq_true]
      right
      exact hcellsome
    exact ⟨Option.isSome_iff_ne_none.mp hcellsome,
      by rw [handleClick_eq i s hstep, if_pos hg]⟩

/-- C10 witness: the initial history is non-empty. -/
theorem history_invariants_witness : initState.history ≠ [] :=
  (history_invariants initState Reachable.init).1
